import Mathlib

/-!
Verification of the endogenous grid method (EGM) notebook
(`egm_policy_iter.ipynb`).  The Python source is shallowly embedded over an
arbitrary linear ordered field `R` (instantiated at `ℚ` for concrete
evaluation and at `ℝ` for the Cobb-Douglas analysis), with NumPy arrays as
lists and the fixed random shock sample passed in explicitly.
-/

namespace EGM

variable {R : Type} [LinearOrderedField R]

/-- Shallow embedding of `np.linspace(a, b, n)` in exact arithmetic: the
points `a + i * (b - a) / (n - 1)` for `i = 0, …, n-1`.  For `n = 1` the
step's denominator is `0`, and division by zero yields `0`, so the result
is `[a]`, matching NumPy. -/
def linspace (a b : R) (n : ℕ) : List R :=
  (List.range n).map (fun i : ℕ => a + (i : R) * ((b - a) / ((n : R) - 1)))

/-- Shallow embedding of `np.mean` on a one-dimensional array. -/
def mean (l : List R) : R := l.sum / (l.length : R)

/-- Modelled from the spec: the third-party `interpolation.interp(xs, ys, x)`
routine (its source is not part of this repository).  Per the spec it
evaluates the piecewise-linear interpolant through the sample pairs
`(xs i, ys i)`: for `x` between two bracketing nodes it interpolates
linearly, and outside the sampled range it extrapolates linearly along the
nearest edge segment.  With fewer than two nodes it degenerates to the
first sample value. -/
def interp : List R → List R → R → R
  | x0 :: x1 :: xs, y0 :: y1 :: ys, x =>
    if x ≤ x1 then y0 + (y1 - y0) * (x - x0) / (x1 - x0)
    else
      match xs with
      | [] => y0 + (y1 - y0) * (x - x0) / (x1 - x0)
      | x2 :: xr => interp (x1 :: x2 :: xr) (y1 :: ys) x
  | _, ys, _ => ys.headD 0

/-- Modelled from the spec: the error raised on invalid model parameters at
construction time.  The source notebook defines no such exception; the type
is needed to state the spec's claim about construction failure. -/
inductive ConfigurationError : Type
  | invalid : ConfigurationError

/-- Shallow embedding of the `OptimalGrowthModel` attribute record: the
pluggable model functions, the scalar parameters, and the fixed shock
sample stored by `__init__`. -/
structure OptimalGrowthModel (R : Type) where
  f : R → R
  f_prime : R → R
  u : R → R
  u_prime : R → R
  u_prime_inv : R → R
  β : R
  μ : R
  s : R
  grid_max : R
  grid_size : ℕ
  shocks : List R

/-- The exogenous capital grid stored by `__init__`:
`np.linspace(1e-5, grid_max, grid_size)`.  It is a function of the stored
parameters only, fixed for the lifetime of the model. -/
def OptimalGrowthModel.grid (og : OptimalGrowthModel R) : List R :=
  linspace (1 / 100000) og.grid_max og.grid_size

/-- Shallow embedding of `OptimalGrowthModel.__init__`.  The constructor
body only stores its arguments (and derives the grid); it performs no
parameter validation, so it always succeeds.  The `Except` signature
exists to state the spec's claimed failure path.  The random draw
`np.exp(μ + s * np.random.randn(shock_size))` is modelled by passing the
realised sample `shocks` explicitly (randomness is external to the
embedding). -/
def init (f f_prime u u_prime u_prime_inv : R → R) (β μ s grid_max : R)
    (grid_size : ℕ) (shocks : List R) :
    Except ConfigurationError (OptimalGrowthModel R) :=
  .ok ⟨f, f_prime, u, u_prime, u_prime_inv, β, μ, s, grid_max, grid_size, shocks⟩

/-- The vector `vals = u_prime(σ(f(k) * shocks)) * f_prime(k) * shocks`
computed in the loop body of `egm_operator_factory.K`. -/
def egmVals (og : OptimalGrowthModel R) (σ : R → R) (k : R) : List R :=
  og.shocks.map (fun z => og.u_prime (σ (og.f k * z)) * og.f_prime k * z)

/-- The loop body `c[i] = u_prime_inv(β * np.mean(vals))` of
`egm_operator_factory.K`. -/
def egmC (og : OptimalGrowthModel R) (σ : R → R) (k : R) : R :=
  og.u_prime_inv (og.β * mean (egmVals og σ k))

/-- The consumption array `c` filled by the loop in
`egm_operator_factory.K` (one entry per exogenous grid point). -/
def Kc (og : OptimalGrowthModel R) (σ : R → R) : List R :=
  og.grid.map (egmC og σ)

/-- The endogenous income grid `y = grid + c` of `egm_operator_factory.K`
(elementwise NumPy addition). -/
def Ky (og : OptimalGrowthModel R) (σ : R → R) : List R :=
  List.zipWith (· + ·) og.grid (Kc og σ)

/-- Shallow embedding of `egm_operator_factory(og).K`: the returned policy
closure `σ_new = lambda x: interp(y, c, x)`. -/
def K (og : OptimalGrowthModel R) (σ : R → R) : R → R :=
  fun x => interp (Ky og σ) (Kc og σ) x

/-- Shallow embedding of `time_operator_factory(og).objective`: the
residual of the Euler equation at consumption `c`, income `y`, and the
grid-sampled policy `σv` (turned into a function via `interp`). -/
def objective (og : OptimalGrowthModel R) (σv : List R) (y c : R) : R :=
  og.u_prime c -
    og.β * mean (og.shocks.map
      (fun z => og.u_prime (interp og.grid σv (og.f (y - c) * z)) *
        og.f_prime (y - c) * z))

/-- Shallow embedding of `time_operator_factory(og).K`.  The external
root-finder `quantecon.optimize.brentq` is modelled from the spec as an
abstract function `rf` receiving the objective and the two bracket
endpoints actually passed by the source: `1e-10` and `y - 1e-10`. -/
def timeK (rf : (R → R) → R → R → R) (og : OptimalGrowthModel R)
    (σv : List R) : List R :=
  og.grid.map (fun y =>
    rf (fun c => objective og σv y c) (1 / 10000000000) (y - 1 / 10000000000))

/-- Modelled from the spec: the fixed shock sample
`np.exp(μ + s * np.random.randn(shock_size))` as a relation between the
realised standard-normal draws `Z` and the stored sample (stated as a
proposition because `Real.exp` has no executable code). -/
def IsShockSample (μ s : ℝ) (Z sample : List ℝ) : Prop :=
  sample = Z.map (fun z => Real.exp (μ + s * z))

/-! ### Helper lemmas about the grid -/

theorem linspace_length (a b : R) (n : ℕ) : (linspace a b n).length = n := by
  simp [linspace]

theorem linspace_mem_self (a b : R) (n : ℕ) (hn : 0 < n) : a ∈ linspace a b n := by
  unfold linspace
  refine List.mem_map.2 ⟨0, List.mem_range.2 hn, ?_⟩
  simp

theorem linspace_mem_bounds (a b : R) (n : ℕ) (hab : a ≤ b) :
    ∀ x ∈ linspace a b n, a ≤ x ∧ x ≤ b := by
  intro x hx
  obtain ⟨i, hi, rfl⟩ := List.mem_map.1 hx
  have hi' : (i : R) ≤ (n : R) - 1 := by
    have : (i : R) + 1 ≤ (n : R) := by
      exact_mod_cast Nat.succ_le_of_lt (List.mem_range.1 hi)
    linarith
  have hin : (0 : R) ≤ (i : R) := by positivity
  rcases eq_or_lt_of_le hab with rfl | hab'
  · constructor <;> simp
  rcases Nat.lt_or_ge n 2 with hn | hn
  · interval_cases n
    · simp at hi
    · have hi0 : i < 1 := List.mem_range.1 hi
      have : i = 0 := by omega
      subst this
      constructor <;> simp [hab]
  · have hden : (0 : R) < (n : R) - 1 := by
      have : (2 : R) ≤ (n : R) := by exact_mod_cast hn
      linarith
    have hstep : (0 : R) ≤ (b - a) / ((n : R) - 1) :=
      div_nonneg (by linarith) (le_of_lt hden)
    constructor
    · nlinarith
    · have : (i : R) * ((b - a) / ((n : R) - 1)) ≤
          ((n : R) - 1) * ((b - a) / ((n : R) - 1)) := by
        exact mul_le_mul_of_nonneg_right hi' hstep
      have hcancel : ((n : R) - 1) * ((b - a) / ((n : R) - 1)) = b - a := by
        field_simp
      linarith

theorem linspace_chain (a b : R) (n : ℕ) (hab : a < b) :
    List.Chain' (· < ·) (linspace a b n) := by
  unfold linspace
  rcases n with _ | m
  · simp
  rw [List.chain'_map, List.chain'_range_succ]
  intro i hi
  have hm : (1 : R) ≤ (m : R) := by
    have : 1 ≤ m := by omega
    exact_mod_cast this
  have hstep : (0 : R) < (b - a) / (((m + 1 : ℕ) : R) - 1) := by
    apply div_pos (by linarith)
    push_cast
    linarith
  push_cast
  push_cast at hstep
  nlinarith [hstep]

/-! ### Helper lemmas about list indexing -/

theorem getD_map_of_lt (f : R → R) (l : List R) (i : ℕ) (h : i < l.length) :
    (l.map f).getD i 0 = f (l.getD i 0) := by
  induction l generalizing i with
  | nil => simp at h
  | cons a t ih =>
    cases i with
    | zero => simp
    | succ j =>
      simp only [List.map_cons, List.getD_cons_succ]
      exact ih j (by simpa using h)

theorem getD_zipWith_add (l₁ l₂ : List R) (i : ℕ)
    (h₁ : i < l₁.length) (h₂ : i < l₂.length) :
    (List.zipWith (· + ·) l₁ l₂).getD i 0 = l₁.getD i 0 + l₂.getD i 0 := by
  induction l₁ generalizing l₂ i with
  | nil => simp at h₁
  | cons a t ih =>
    cases l₂ with
    | nil => simp at h₂
    | cons b t₂ =>
      cases i with
      | zero => simp
      | succ j =>
        simp only [List.zipWith_cons_cons, List.getD_cons_succ]
        exact ih t₂ j (by simpa using h₁) (by simpa using h₂)

theorem zipWith_add_map (g : R → R) (l : List R) :
    List.zipWith (· + ·) l (l.map g) = l.map (fun k => k + g k) := by
  induction l with
  | nil => rfl
  | cons a t ih => simp [ih]

theorem Ky_eq_map (og : OptimalGrowthModel R) (σ : R → R) :
    Ky og σ = og.grid.map (fun k => k + egmC og σ k) := by
  unfold Ky Kc
  exact zipWith_add_map _ _

/-! ### Helper lemmas about strictly increasing lists -/

theorem chain'_cons_lt (a : R) (t : List R) (h : List.Chain' (· < ·) (a :: t)) :
    ∀ k, k < t.length → a < t.getD k 0 := by
  induction t generalizing a with
  | nil => intro k hk; simp at hk
  | cons b t' ih =>
    intro k hk
    rw [List.chain'_cons] at h
    cases k with
    | zero => simpa using h.1
    | succ j =>
      simp only [List.getD_cons_succ]
      exact lt_trans h.1 (ih b h.2 j (by simpa using hk))

theorem chain'_getD_lt (l : List R) (h : List.Chain' (· < ·) l) :
    ∀ j k, j < k → k < l.length → l.getD j 0 < l.getD k 0 := by
  induction l with
  | nil => intro j k _ hk; simp at hk
  | cons a t ih =>
    intro j k hjk hk
    cases j with
    | zero =>
      cases k with
      | zero => omega
      | succ k' =>
        simp only [List.getD_cons_zero, List.getD_cons_succ]
        exact chain'_cons_lt a t h k' (by simpa using hk)
    | succ j' =>
      cases k with
      | zero => omega
      | succ k' =>
        simp only [List.getD_cons_succ]
        exact ih (List.Chain'.tail h) j' k' (by omega) (by simpa using hk)

theorem chain'_map_add_of_mono (F : R → R) :
    ∀ l : List R, List.Chain' (· < ·) l → (∀ k ∈ l, 0 < k) →
      (∀ a b, 0 < a → a < b → F a ≤ F b) →
      List.Chain' (· < ·) (l.map (fun k => k + F k)) := by
  intro l
  induction l with
  | nil => intro _ _ _; simp
  | cons a t ih =>
    intro hchain hpos hmono
    cases t with
    | nil => simp
    | cons b t' =>
      rw [List.chain'_cons] at hchain
      simp only [List.map_cons, List.chain'_cons] at *
      constructor
      · have hFa : F a ≤ F b :=
          hmono a b (hpos a (by simp)) hchain.1
        have : a < b := hchain.1
        linarith
      · have := ih hchain.2 (fun k hk => hpos k (by simp [hk])) hmono
        simpa using this

/-! ### Helper lemmas about the interpolant -/

theorem interp_first_seg (x0 x1 : R) (xs : List R) (y0 y1 : R) (ys : List R)
    (x : R) (h : x ≤ x1) :
    interp (x0 :: x1 :: xs) (y0 :: y1 :: ys) x =
      y0 + (y1 - y0) * (x - x0) / (x1 - x0) := by
  cases xs <;> simp [interp, h]

theorem interp_two (x0 x1 : R) (y0 y1 : R) (x : R) :
    interp [x0, x1] [y0, y1] x = y0 + (y1 - y0) * (x - x0) / (x1 - x0) := by
  by_cases h : x ≤ x1 <;> simp [interp, h]

theorem interp_step (x0 x1 x2 : R) (xr : List R) (y0 y1 : R) (ys : List R)
    (x : R) (h : ¬ x ≤ x1) :
    interp (x0 :: x1 :: x2 :: xr) (y0 :: y1 :: ys) x =
      interp (x1 :: x2 :: xr) (y1 :: ys) x := by
  simp [interp, h]

theorem interp_above (x : R) :
    ∀ (xs : List R) (x0 x1 : R) (ys : List R) (y0 y1 : R),
      ys.length = xs.length →
      List.Chain' (· < ·) (x0 :: x1 :: xs) →
      (x0 :: x1 :: xs).getD (xs.length + 1) 0 < x →
      interp (x0 :: x1 :: xs) (y0 :: y1 :: ys) x =
        (y0 :: y1 :: ys).getD xs.length 0 +
          ((y0 :: y1 :: ys).getD (xs.length + 1) 0 -
            (y0 :: y1 :: ys).getD xs.length 0) *
          (x - (x0 :: x1 :: xs).getD xs.length 0) /
          ((x0 :: x1 :: xs).getD (xs.length + 1) 0 -
            (x0 :: x1 :: xs).getD xs.length 0) := by
  intro xs
  induction xs with
  | nil =>
    intro x0 x1 ys y0 y1 hlen hchain hx
    have hys : ys = [] := List.eq_nil_of_length_eq_zero hlen
    subst hys
    simp only [List.length_nil, List.getD_cons_zero, List.getD_cons_succ] at *
    exact interp_two x0 x1 y0 y1 x
  | cons x2 xr ih =>
    intro x0 x1 ys y0 y1 hlen hchain hx
    obtain ⟨y2, yr, rfl⟩ : ∃ y2 yr, ys = y2 :: yr := by
      cases ys with
      | nil => simp at hlen
      | cons a t => exact ⟨a, t, rfl⟩
    have hyr : yr.length = xr.length := by simpa using hlen
    simp only [List.length_cons] at hx ⊢
    have hx1 : x1 < (x0 :: x1 :: x2 :: xr).getD (xr.length + 1 + 1) 0 := by
      have h1 : (x0 :: x1 :: x2 :: xr).getD 1 0 = x1 := by simp
      have := chain'_getD_lt _ hchain 1 (xr.length + 1 + 1)
        (by omega) (by simp)
      rwa [h1] at this
    have hnot : ¬ x ≤ x1 := not_le.2 (lt_trans hx1 hx)
    rw [interp_step x0 x1 x2 xr y0 y1 (y2 :: yr) x hnot]
    have happ := ih x1 x2 yr y1 y2 hyr (List.Chain'.tail hchain)
      (by simp only [List.getD_cons_succ] at hx ⊢; exact hx)
    simp only [List.getD_cons_succ] at happ ⊢
    exact happ

theorem interp_bracket (x : R) :
    ∀ (xs : List R) (x0 x1 : R) (ys : List R) (y0 y1 : R) (i : ℕ),
      ys.length = xs.length →
      List.Chain' (· < ·) (x0 :: x1 :: xs) →
      i + 1 < xs.length + 2 →
      (x0 :: x1 :: xs).getD i 0 ≤ x →
      x ≤ (x0 :: x1 :: xs).getD (i + 1) 0 →
      interp (x0 :: x1 :: xs) (y0 :: y1 :: ys) x =
        (y0 :: y1 :: ys).getD i 0 +
          ((y0 :: y1 :: ys).getD (i + 1) 0 - (y0 :: y1 :: ys).getD i 0) *
          (x - (x0 :: x1 :: xs).getD i 0) /
          ((x0 :: x1 :: xs).getD (i + 1) 0 - (x0 :: x1 :: xs).getD i 0) := by
  intro xs
  induction xs with
  | nil =>
    intro x0 x1 ys y0 y1 i hlen hchain hi hlo hhi
    have hys : ys = [] := List.eq_nil_of_length_eq_zero hlen
    subst hys
    have hi2 : i + 1 < 2 := by simpa using hi
    have hi0 : i = 0 := by omega
    subst hi0
    simp only [List.getD_cons_zero, List.getD_cons_succ] at hlo hhi ⊢
    exact interp_two x0 x1 y0 y1 x
  | cons x2 xr ih =>
    intro x0 x1 ys y0 y1 i hlen hchain hi hlo hhi
    obtain ⟨y2, yr, rfl⟩ : ∃ y2 yr, ys = y2 :: yr := by
      cases ys with
      | nil => simp at hlen
      | cons a t => exact ⟨a, t, rfl⟩
    have hyr : yr.length = xr.length := by simpa using hlen
    have hx01 : x0 < x1 := (List.chain'_cons.1 hchain).1
    have hx12 : x1 < x2 := (List.chain'_cons.1 (List.Chain'.tail hchain)).1
    cases i with
    | zero =>
      simp only [List.getD_cons_zero, List.getD_cons_succ] at hlo hhi ⊢
      exact interp_first_seg x0 x1 (x2 :: xr) y0 y1 (y2 :: yr) x hhi
    | succ j =>
      by_cases hx1 : x ≤ x1
      · have hj : j = 0 := by
          by_contra hj0
          have hlt : (x0 :: x1 :: x2 :: xr).getD 1 0 <
              (x0 :: x1 :: x2 :: xr).getD (j + 1) 0 :=
            chain'_getD_lt _ hchain 1 (j + 1) (by omega)
              (by simp only [List.length_cons] at hi ⊢; omega)
          simp only [List.getD_cons_succ, List.getD_cons_zero] at hlt hlo
          have : x1 < x := lt_of_lt_of_le hlt hlo
          linarith
        subst hj
        simp only [List.getD_cons_succ, List.getD_cons_zero] at hlo hhi ⊢
        have hxeq : x = x1 := le_antisymm hx1 hlo
        rw [interp_first_seg x0 x1 (x2 :: xr) y0 y1 (y2 :: yr) x hx1, hxeq]
        have h10 : x1 - x0 ≠ 0 := sub_ne_zero_of_ne (ne_of_gt hx01)
        have h21 : x2 - x1 ≠ 0 := sub_ne_zero_of_ne (ne_of_gt hx12)
        field_simp
      · rw [interp_step x0 x1 x2 xr y0 y1 (y2 :: yr) x hx1]
        have happ := ih x1 x2 yr y1 y2 j hyr (List.Chain'.tail hchain)
          (by simp only [List.length_cons] at hi ⊢; omega)
          (by simp only [List.getD_cons_succ] at hlo ⊢; exact hlo)
          (by simp only [List.getD_cons_succ] at hhi ⊢; exact hhi)
        simp only [List.getD_cons_succ] at happ ⊢
        exact happ

theorem lin_node_cancel (ya yb xa xb : R) (h : xb - xa ≠ 0) :
    ya + (yb - ya) * (xb - xa) / (xb - xa) = yb := by
  field_simp

theorem interp_node (xs ys : List R) (hlen : ys.length = xs.length)
    (hchain : List.Chain' (· < ·) xs) :
    ∀ i, i < xs.length → interp xs ys (xs.getD i 0) = ys.getD i 0 := by
  intro i hi
  cases xs with
  | nil => simp at hi
  | cons x0 xt =>
    cases xt with
    | nil =>
      obtain ⟨y0, rfl⟩ : ∃ y0, ys = [y0] := by
        cases ys with
        | nil => simp at hlen
        | cons a t =>
          cases t with
          | nil => exact ⟨a, rfl⟩
          | cons b t' => simp at hlen
      have hi0 : i = 0 := by simp at hi; omega
      subst hi0
      simp [interp]
    | cons x1 xs' =>
      obtain ⟨y0, y1, ys', rfl⟩ : ∃ y0 y1 ys', ys = y0 :: y1 :: ys' := by
        cases ys with
        | nil => simp at hlen
        | cons a t =>
          cases t with
          | nil => simp at hlen
          | cons b t' => exact ⟨a, b, t', rfl⟩
      have hlen' : ys'.length = xs'.length := by simpa using hlen
      simp only [List.length_cons] at hi
      rcases Nat.lt_or_ge (i + 1) (xs'.length + 2) with hcase | hcase
      · have hle : (x0 :: x1 :: xs').getD i 0 ≤ (x0 :: x1 :: xs').getD (i + 1) 0 :=
          le_of_lt (chain'_getD_lt _ hchain i (i + 1) (by omega)
            (by simp only [List.length_cons]; omega))
        rw [interp_bracket _ xs' x0 x1 ys' y0 y1 i hlen' hchain hcase le_rfl hle]
        simp [sub_self, mul_zero, zero_div]
      · have hieq : i = xs'.length + 1 := by omega
        subst hieq
        have hlt : (x0 :: x1 :: xs').getD xs'.length 0 <
            (x0 :: x1 :: xs').getD (xs'.length + 1) 0 :=
          chain'_getD_lt _ hchain xs'.length (xs'.length + 1) (by omega)
            (by simp only [List.length_cons]; omega)
        rw [interp_bracket _ xs' x0 x1 ys' y0 y1 xs'.length hlen' hchain
          (by omega) (le_of_lt hlt) le_rfl]
        have hne : (x0 :: x1 :: xs').getD (xs'.length + 1) 0 -
            (x0 :: x1 :: xs').getD xs'.length 0 ≠ 0 :=
          sub_ne_zero_of_ne (ne_of_gt hlt)
        exact lin_node_cancel _ _ _ _ hne

theorem interp_affine (m : R) :
    ∀ (xs : List R) (x0 x1 : R) (x : R),
      List.Chain' (· < ·) (x0 :: x1 :: xs) →
      interp (x0 :: x1 :: xs) ((x0 :: x1 :: xs).map (fun t => m * t)) x = m * x := by
  intro xs
  induction xs with
  | nil =>
    intro x0 x1 x hchain
    have h01 : x0 < x1 := (List.chain'_cons.1 hchain).1
    have hne : x1 - x0 ≠ 0 := sub_ne_zero_of_ne (ne_of_gt h01)
    simp only [List.map_cons, List.map_nil]
    rw [interp_two]
    field_simp
    ring
  | cons x2 xr ih =>
    intro x0 x1 x hchain
    simp only [List.map_cons]
    by_cases hx : x ≤ x1
    · rw [interp_first_seg x0 x1 (x2 :: xr) (m * x0) (m * x1)
        ((m * x2) :: xr.map (fun t => m * t)) x hx]
      have h01 : x0 < x1 := (List.chain'_cons.1 hchain).1
      have hne : x1 - x0 ≠ 0 := sub_ne_zero_of_ne (ne_of_gt h01)
      field_simp
      ring
    · rw [interp_step x0 x1 x2 xr (m * x0) (m * x1)
        ((m * x2) :: xr.map (fun t => m * t)) x hx]
      have := ih x1 x2 x (List.Chain'.tail hchain)
      simpa only [List.map_cons] using this

/-! ### Helper lemmas about the sample mean -/

theorem mean_nonneg (l : List R) (h : ∀ t ∈ l, 0 ≤ t) : 0 ≤ mean l :=
  div_nonneg (List.sum_nonneg h) (by positivity)

theorem mean_map_le_mean_map (g g' : R → R) (l : List R) (hne : l ≠ [])
    (h : ∀ t ∈ l, g t ≤ g' t) : mean (l.map g) ≤ mean (l.map g') := by
  unfold mean
  simp only [List.length_map]
  have hlen : (0 : R) < (l.length : R) := by
    have : 0 < l.length := List.length_pos.2 hne
    exact_mod_cast this
  exact (div_le_div_iff_of_pos_right hlen).2 (List.sum_le_sum h)

theorem mean_map_const (l : List R) (c : R) (hne : l ≠ []) :
    mean (l.map (fun _ => c)) = c := by
  unfold mean
  have hn : ((l.length : R)) ≠ 0 := by
    have : 0 < l.length := List.length_pos.2 hne
    positivity
  simp only [List.map_const', List.sum_replicate, List.length_replicate,
    nsmul_eq_mul]
  exact mul_div_cancel_left₀ c hn

/-! ### Concrete model instances used by the witnesses -/

/-- A minimal valid model instance: identity production, unit derivative,
identity marginal utility, two grid points, one unit shock. -/
def ogW : OptimalGrowthModel ℚ :=
  { f := fun k => k, f_prime := fun _ => 1, u := fun c => c, u_prime := fun c => c,
    u_prime_inv := fun c => c, β := 1/2, μ := 0, s := 1/10,
    grid_max := 2, grid_size := 2, shocks := [1] }

/-- A model whose supplied inverse marginal utility returns a negative
value: exercises the absence of domain checking in the operator. -/
def ogNeg : OptimalGrowthModel ℚ :=
  { f := fun k => k, f_prime := fun _ => 1, u := fun c => c, u_prime := fun c => c,
    u_prime_inv := fun _ => -1, β := 1/2, μ := 0, s := 1/10,
    grid_max := 2, grid_size := 2, shocks := [1] }

/-- A model whose functions satisfy the monotonicity stack used by the
endogenous-grid monotonicity theorem. -/
def ogMono : OptimalGrowthModel ℚ :=
  { f := fun k => k, f_prime := fun _ => 1, u := fun c => c, u_prime := fun _ => 1,
    u_prime_inv := fun x => 1 - x, β := 1/2, μ := 0, s := 1/10,
    grid_max := 2, grid_size := 2, shocks := [1] }

/-! ### Claim C1 -/

/-- C1: one application of the EGM operator computes, at every grid index
`i`, the consumption `c_i = u_prime_inv(β * mean_j(u_prime(σ(f(k_i) * z_j))
* f_prime(k_i) * z_j))` over the fixed shock sample, sets the endogenous
income point `y_i = k_i + c_i`, and reads the exogenous grid
`linspace(1e-5, grid_max, grid_size)` fixed by the model alone (the
operator never changes it). -/
theorem C1_egm_update_formula (og : OptimalGrowthModel ℚ) (σ : ℚ → ℚ) (i : ℕ)
    (h : i < og.grid.length) :
    (Kc og σ).getD i 0 =
      og.u_prime_inv (og.β * mean (og.shocks.map (fun z =>
        og.u_prime (σ (og.f (og.grid.getD i 0) * z)) *
          og.f_prime (og.grid.getD i 0) * z))) ∧
    (Ky og σ).getD i 0 = og.grid.getD i 0 + (Kc og σ).getD i 0 ∧
    og.grid = linspace (1 / 100000) og.grid_max og.grid_size := by
  refine ⟨?_, ?_, rfl⟩
  · unfold Kc
    rw [getD_map_of_lt _ _ _ h]
    rfl
  · unfold Ky
    rw [getD_zipWith_add og.grid (Kc og σ) i h (by unfold Kc; simpa using h)]

theorem C1_witness :
    (Kc ogW (fun x => x)).getD 0 0 =
      ogW.u_prime_inv (ogW.β * mean (ogW.shocks.map (fun z =>
        ogW.u_prime ((fun x => x) (ogW.f (ogW.grid.getD 0 0) * z)) *
          ogW.f_prime (ogW.grid.getD 0 0) * z))) ∧
    (Ky ogW (fun x => x)).getD 0 0 =
      ogW.grid.getD 0 0 + (Kc ogW (fun x => x)).getD 0 0 ∧
    ogW.grid = linspace (1 / 100000) ogW.grid_max ogW.grid_size :=
  C1_egm_update_formula ogW (fun x => x) 0
    (by norm_num [OptimalGrowthModel.grid, linspace_length, ogW])

/-! ### Claim C2 -/

/-- A strictly increasing continuous piecewise-linear production function
with `fcx 0 = 0`: very steep on `(-∞, 1e-6]`, nearly flat on `[1e-6, 1]`,
very steep again on `[1, ∞)`.  It is not concave, which is what the
counterexample exploits. -/
def fcx (k : ℚ) : ℚ :=
  if k ≤ 1 / 1000000 then 10000000 * k
  else if k ≤ 1 then 10 + (1 / 10000) * (k - 1 / 1000000)
  else (10 + (1 / 10000) * (1 - 1 / 1000000)) + 1000000 * (k - 1)

/-- The piecewise slope of `fcx` (its derivative away from the two kinks;
both grid points of the counterexample model lie strictly inside a piece). -/
def fpx (k : ℚ) : ℚ :=
  if k ≤ 1 / 1000000 then 10000000
  else if k ≤ 1 then 1 / 10000
  else 1000000

/-- The counterexample model: log-type utility u_prime(c) = 1/c (strictly
decreasing and self-inverse on positives), production fcx (strictly
increasing with f(0) = 0 but not concave), β = 1/2, one unit shock, two
grid points. -/
def ogcx : OptimalGrowthModel ℚ :=
  { f := fcx, f_prime := fpx, u := fun c => c, u_prime := fun c => 1 / c,
    u_prime_inv := fun x => 1 / x, β := 1 / 2, μ := 0, s := 1 / 10,
    grid_max := 2, grid_size := 2, shocks := [1] }

/-- C2 counterexample: a model satisfying every assumption the claim
states — σ strictly increasing, f strictly increasing with f(0) = 0,
u_prime strictly decreasing and invertible on positives, positive
shocks — whose endogenous grid after one EGM application is NOT
increasing: y_0 ≈ 200000.00003 > y_1 ≈ 4.00002.  The claim's assumptions
do not constrain f_prime to be nonincreasing (f concave), and a convex
production kink makes the grid points cross. -/
theorem C2_counterexample :
    StrictMono (fun x : ℚ => x) ∧
    StrictMono ogcx.f ∧ ogcx.f 0 = 0 ∧
    (∀ a b : ℚ, 0 < a → a < b → ogcx.u_prime b < ogcx.u_prime a) ∧
    (∀ c : ℚ, 0 < c → ogcx.u_prime_inv (ogcx.u_prime c) = c) ∧
    (∀ x : ℚ, 0 < x → ogcx.u_prime (ogcx.u_prime_inv x) = x) ∧
    (∀ z ∈ ogcx.shocks, 0 < z) ∧
    ¬ List.Chain' (· < ·) (Ky ogcx (fun x => x)) := by
  refine ⟨fun a b h => h, ?_, ?_, ?_, ?_, ?_, ?_, ?_⟩
  · show StrictMono fcx
    intro x y hxy
    unfold fcx
    split_ifs with h1 h2 h3 h4 h5 <;> nlinarith
  · show fcx 0 = 0
    norm_num [fcx]
  · intro a b ha hab
    exact one_div_lt_one_div_of_lt ha hab
  · intro c hc
    show (1 : ℚ) / (1 / c) = c
    rw [one_div_one_div]
  · intro x hx
    show (1 : ℚ) / (1 / x) = x
    rw [one_div_one_div]
  · intro z hz
    simp [ogcx] at hz
    norm_num [hz]
  · have hky : Ky ogcx (fun x => x) =
        [50000000007 / 250000, 20000100000999999 / 5000000000000000] := by
      norm_num [Ky, Kc, egmC, egmVals, mean, OptimalGrowthModel.grid, linspace,
        ogcx, fcx, fpx, List.range_succ]
    intro h
    rw [hky] at h
    simp only [List.chain'_cons, List.chain'_singleton, and_true] at h
    norm_num at h

/-- C2 (amended): the endogenous grid is strictly increasing provided the
claim's assumptions are strengthened with the concavity-type conditions the
source's well-behaved examples satisfy: u_prime nonnegative and antitone on
positives, f_prime nonnegative and antitone on positives, u_prime_inv
antitone on nonnegatives, positive shocks and a positive discount factor.
Under these, consumption is monotone in capital, so y_i = k_i + c_i never
crosses and the (y_i, c_i) pairs are already sorted ascending. -/
theorem C2_endogenous_grid_monotone (og : OptimalGrowthModel ℚ) (σ : ℚ → ℚ)
    (hβ : 0 < og.β)
    (hchain : List.Chain' (· < ·) og.grid)
    (hgpos : ∀ k ∈ og.grid, 0 < k)
    (hshne : og.shocks ≠ [])
    (hshpos : ∀ z ∈ og.shocks, 0 < z)
    (hf : ∀ a b : ℚ, 0 < a → a < b → og.f a < og.f b)
    (hfpos : ∀ a : ℚ, 0 < a → 0 < og.f a)
    (hσ : ∀ a b : ℚ, 0 < a → a ≤ b → σ a ≤ σ b)
    (hσpos : ∀ a : ℚ, 0 < a → 0 < σ a)
    (hup : ∀ a b : ℚ, 0 < a → a ≤ b → og.u_prime b ≤ og.u_prime a)
    (huppos : ∀ a : ℚ, 0 < a → 0 ≤ og.u_prime a)
    (hfp : ∀ a b : ℚ, 0 < a → a ≤ b → og.f_prime b ≤ og.f_prime a)
    (hfppos : ∀ a : ℚ, 0 < a → 0 ≤ og.f_prime a)
    (hupi : ∀ a b : ℚ, 0 ≤ a → a ≤ b → og.u_prime_inv b ≤ og.u_prime_inv a) :
    List.Chain' (· < ·) (Ky og σ) := by
  rw [Ky_eq_map]
  apply chain'_map_add_of_mono (egmC og σ) og.grid hchain hgpos
  intro a b ha hab
  have hb : 0 < b := lt_trans ha hab
  unfold egmC
  apply hupi
  · apply mul_nonneg (le_of_lt hβ)
    apply mean_nonneg
    intro t ht
    unfold egmVals at ht
    obtain ⟨z, hz, rfl⟩ := List.mem_map.1 ht
    have hzpos := hshpos z hz
    have harg : 0 < og.f b * z := mul_pos (hfpos b hb) hzpos
    exact mul_nonneg
      (mul_nonneg (huppos _ (hσpos _ harg)) (hfppos b hb)) (le_of_lt hzpos)
  · apply mul_le_mul_of_nonneg_left _ (le_of_lt hβ)
    unfold egmVals
    apply mean_map_le_mean_map _ _ og.shocks hshne
    intro z hz
    have hzpos := hshpos z hz
    have harga : 0 < og.f a * z := mul_pos (hfpos a ha) hzpos
    have hargle : og.f a * z ≤ og.f b * z :=
      le_of_lt (mul_lt_mul_of_pos_right (hf a b ha hab) hzpos)
    have hule : og.u_prime (σ (og.f b * z)) ≤ og.u_prime (σ (og.f a * z)) :=
      hup _ _ (hσpos _ harga) (hσ _ _ harga hargle)
    have h1 : og.u_prime (σ (og.f b * z)) * og.f_prime b ≤
        og.u_prime (σ (og.f a * z)) * og.f_prime a :=
      mul_le_mul hule (hfp a b ha (le_of_lt hab)) (hfppos b hb)
        (huppos _ (hσpos _ harga))
    exact mul_le_mul_of_nonneg_right h1 (le_of_lt hzpos)

theorem ogMono_grid : ogMono.grid = [1 / 100000, 2] := by
  norm_num [OptimalGrowthModel.grid, linspace, ogMono, List.range_succ]

theorem C2_witness : List.Chain' (· < ·) (Ky ogMono (fun x => x)) :=
  C2_endogenous_grid_monotone ogMono (fun x => x)
    (by norm_num [ogMono])
    (by rw [ogMono_grid]; norm_num [List.chain'_cons, List.chain'_singleton])
    (by rw [ogMono_grid]; intro k hk; simp at hk; rcases hk with rfl | rfl <;> norm_num)
    (by simp [ogMono])
    (by intro z hz; simp [ogMono] at hz; norm_num [hz])
    (fun a b _ h => h)
    (fun a h => h)
    (fun a b _ h => h)
    (fun a h => h)
    (fun _ _ _ _ => le_refl 1)
    (fun _ _ => zero_le_one)
    (fun _ _ _ _ => le_refl 1)
    (fun _ _ => zero_le_one)
    (fun a b _ h => sub_le_sub_left h 1)

/-! ### Claim C3 -/

/-- C3 counterexample: constructing a model with β = 1.5, grid_size = 1 and
an empty shock sample succeeds, returning the stored model unchanged — the
constructor raises no ConfigurationError for any of the inputs the claim
says it must reject. -/
theorem C3_counterexample :
    init (R := ℚ) (fun k => k) (fun _ => 1) (fun c => c) (fun c => c)
      (fun c => c) (3 / 2) 0 (1 / 10) 4 1 [] =
      Except.ok ⟨fun k => k, fun _ => 1, fun c => c, fun c => c, fun c => c,
        3 / 2, 0, 1 / 10, 4, 1, []⟩ := rfl

/-- C3 (amended): the constructor performs no parameter validation at all:
for every parameter assignment — including a discount factor outside (0,1),
grid_size < 2 and a shock sample smaller than 1 — construction succeeds and
stores the parameters unchanged. -/
theorem C3_no_validation (f f' u u' u'inv : ℚ → ℚ) (β μ s gm : ℚ) (gs : ℕ)
    (sh : List ℚ) :
    init f f' u u' u'inv β μ s gm gs sh =
      Except.ok ⟨f, f', u, u', u'inv, β, μ, s, gm, gs, sh⟩ := rfl

/-! ### Claim C4 -/

/-- C4 counterexample: with a supplied u_prime_inv that returns −1, one EGM
application returns a policy whose consumption array contains the negative
value −1: no DomainError interrupts the operator and nothing is clamped,
contradicting the claim that a negative consumption value can never be
returned. -/
theorem C4_counterexample : (Kc ogNeg (fun x => x)).getD 0 0 = -1 := by
  norm_num [Kc, egmC, egmVals, mean, OptimalGrowthModel.grid, linspace, ogNeg,
    List.range_succ]

/-- C4 (amended): the operator applies the model's u_prime_inv directly and
stores whatever it returns, with no domain checking, no error and no
clamping: whenever u_prime_inv(β · mean(vals_i)) is negative, the returned
consumption entry at index i is that same negative value. -/
theorem C4_negative_passthrough (og : OptimalGrowthModel ℚ) (σ : ℚ → ℚ)
    (i : ℕ) (h : i < og.grid.length)
    (hneg : og.u_prime_inv (og.β * mean (egmVals og σ (og.grid.getD i 0))) < 0) :
    (Kc og σ).getD i 0 < 0 := by
  unfold Kc
  rw [getD_map_of_lt _ _ _ h]
  exact hneg

theorem C4_witness : (Kc ogNeg (fun x => 2 * x)).getD 0 0 < 0 :=
  C4_negative_passthrough ogNeg (fun x => 2 * x) 0
    (by norm_num [OptimalGrowthModel.grid, linspace_length, ogNeg])
    (by norm_num [egmVals, mean, OptimalGrowthModel.grid, linspace, ogNeg,
      List.range_succ])

/-! ### Claim C6 -/

/-- C6: both operators are deterministic functions of the stored model
parameters and the fixed shock sample: two models agreeing on f, f_prime,
u_prime, u_prime_inv, β, grid_max, grid_size and the shock sample produce
identical EGM consumption/income arrays, an identical returned policy at
every evaluation point, and identical exogenous-grid operator output for
any root-finder — no other state (and no randomness) enters an operator
application. -/
theorem C6_determinism (og₁ og₂ : OptimalGrowthModel ℚ) (σ : ℚ → ℚ)
    (σv : List ℚ) (rf : (ℚ → ℚ) → ℚ → ℚ → ℚ)
    (hf : og₁.f = og₂.f) (hfp : og₁.f_prime = og₂.f_prime)
    (hup : og₁.u_prime = og₂.u_prime) (hupi : og₁.u_prime_inv = og₂.u_prime_inv)
    (hβ : og₁.β = og₂.β) (hgm : og₁.grid_max = og₂.grid_max)
    (hgs : og₁.grid_size = og₂.grid_size) (hsh : og₁.shocks = og₂.shocks) :
    Kc og₁ σ = Kc og₂ σ ∧ Ky og₁ σ = Ky og₂ σ ∧
      (∀ x, K og₁ σ x = K og₂ σ x) ∧ timeK rf og₁ σv = timeK rf og₂ σv := by
  have hg : og₁.grid = og₂.grid := by
    unfold OptimalGrowthModel.grid
    rw [hgm, hgs]
  have hkc : Kc og₁ σ = Kc og₂ σ := by
    unfold Kc egmC egmVals
    rw [hg, hf, hfp, hup, hupi, hβ, hsh]
  have hky : Ky og₁ σ = Ky og₂ σ := by
    unfold Ky
    rw [hg, hkc]
  refine ⟨hkc, hky, ?_, ?_⟩
  · intro x
    unfold K
    rw [hky, hkc]
  · unfold timeK objective
    rw [hg, hf, hfp, hup, hβ, hsh]

/-! ### Claims C5 and C9: evaluation of the returned interpolant -/

theorem interp_eval_cases (xs ys : List R) (x : R) (i : ℕ)
    (hlen : 2 ≤ xs.length) (hleq : ys.length = xs.length)
    (hchain : List.Chain' (· < ·) xs) :
    (x < xs.getD 0 0 →
      interp xs ys x = ys.getD 0 0 +
        (ys.getD 1 0 - ys.getD 0 0) * (x - xs.getD 0 0) /
          (xs.getD 1 0 - xs.getD 0 0)) ∧
    (xs.getD (xs.length - 1) 0 < x →
      interp xs ys x = ys.getD (xs.length - 2) 0 +
        (ys.getD (xs.length - 1) 0 - ys.getD (xs.length - 2) 0) *
          (x - xs.getD (xs.length - 2) 0) /
          (xs.getD (xs.length - 1) 0 - xs.getD (xs.length - 2) 0)) ∧
    (i + 1 < xs.length → xs.getD i 0 ≤ x → x ≤ xs.getD (i + 1) 0 →
      interp xs ys x = ys.getD i 0 +
        (ys.getD (i + 1) 0 - ys.getD i 0) * (x - xs.getD i 0) /
          (xs.getD (i + 1) 0 - xs.getD i 0)) := by
  obtain ⟨x0, x1, xr, rfl⟩ : ∃ a b t, xs = a :: b :: t := by
    cases xs with
    | nil => simp at hlen
    | cons a t =>
      cases t with
      | nil => simp at hlen
      | cons b t' => exact ⟨a, b, t', rfl⟩
  obtain ⟨y0, y1, yr, rfl⟩ : ∃ a b t, ys = a :: b :: t := by
    cases ys with
    | nil => simp at hleq
    | cons a t =>
      cases t with
      | nil => simp at hleq
      | cons b t' => exact ⟨a, b, t', rfl⟩
  have hyr : yr.length = xr.length := by simpa using hleq
  refine ⟨?_, ?_, ?_⟩
  · intro hx
    simp only [List.getD_cons_zero] at hx
    have h01 : x0 < x1 := (List.chain'_cons.1 hchain).1
    simp only [List.getD_cons_zero, List.getD_cons_succ]
    exact interp_first_seg x0 x1 xr y0 y1 yr x (le_of_lt (lt_trans hx h01))
  · have e1 : (x0 :: x1 :: xr).length - 1 = xr.length + 1 := by
      simp only [List.length_cons]
      omega
    have e2 : (x0 :: x1 :: xr).length - 2 = xr.length := by
      simp only [List.length_cons]
      omega
    rw [e1, e2]
    intro hx
    exact interp_above x xr x0 x1 yr y0 y1 hyr hchain hx
  · intro hi hlo hhi
    have hi' : i + 1 < xr.length + 2 := by
      simp only [List.length_cons] at hi
      omega
    exact interp_bracket x xr x0 x1 yr y0 y1 i hyr hchain hi' hlo hhi

theorem Kc_length_eq_Ky_length (og : OptimalGrowthModel R) (σ : R → R) :
    (Kc og σ).length = (Ky og σ).length := by
  unfold Ky Kc
  simp

/-- C5: evaluating the policy returned by the EGM operator never raises (it
is a total function): strictly below the first endogenous income point it
extrapolates linearly along the first segment of the (y_i, c_i) pairs,
strictly above the last point it extrapolates linearly along the last
segment, and between two bracketing pairs it interpolates linearly. -/
theorem C5_policy_evaluation (og : OptimalGrowthModel ℚ) (σ : ℚ → ℚ)
    (x : ℚ) (i : ℕ)
    (hlen : 2 ≤ (Ky og σ).length)
    (hchain : List.Chain' (· < ·) (Ky og σ)) :
    (x < (Ky og σ).getD 0 0 →
      K og σ x = (Kc og σ).getD 0 0 +
        ((Kc og σ).getD 1 0 - (Kc og σ).getD 0 0) * (x - (Ky og σ).getD 0 0) /
          ((Ky og σ).getD 1 0 - (Ky og σ).getD 0 0)) ∧
    ((Ky og σ).getD ((Ky og σ).length - 1) 0 < x →
      K og σ x = (Kc og σ).getD ((Ky og σ).length - 2) 0 +
        ((Kc og σ).getD ((Ky og σ).length - 1) 0 -
          (Kc og σ).getD ((Ky og σ).length - 2) 0) *
          (x - (Ky og σ).getD ((Ky og σ).length - 2) 0) /
          ((Ky og σ).getD ((Ky og σ).length - 1) 0 -
            (Ky og σ).getD ((Ky og σ).length - 2) 0)) ∧
    (i + 1 < (Ky og σ).length → (Ky og σ).getD i 0 ≤ x →
      x ≤ (Ky og σ).getD (i + 1) 0 →
      K og σ x = (Kc og σ).getD i 0 +
        ((Kc og σ).getD (i + 1) 0 - (Kc og σ).getD i 0) *
          (x - (Ky og σ).getD i 0) /
          ((Ky og σ).getD (i + 1) 0 - (Ky og σ).getD i 0)) := by
  unfold K
  exact interp_eval_cases (Ky og σ) (Kc og σ) x i hlen
    (Kc_length_eq_Ky_length og σ) hchain

theorem ogW_Ky : Ky ogW (fun x => x) = [3 / 200000, 3] := by
  norm_num [Ky, Kc, egmC, egmVals, mean, OptimalGrowthModel.grid, linspace,
    ogW, List.range_succ]

theorem C5_witness :
    ((0 : ℚ) < (Ky ogW (fun x => x)).getD 0 0 →
      K ogW (fun x => x) 0 = (Kc ogW (fun x => x)).getD 0 0 +
        ((Kc ogW (fun x => x)).getD 1 0 - (Kc ogW (fun x => x)).getD 0 0) *
          ((0 : ℚ) - (Ky ogW (fun x => x)).getD 0 0) /
          ((Ky ogW (fun x => x)).getD 1 0 - (Ky ogW (fun x => x)).getD 0 0)) ∧
    ((Ky ogW (fun x => x)).getD ((Ky ogW (fun x => x)).length - 1) 0 < (0 : ℚ) →
      K ogW (fun x => x) 0 =
        (Kc ogW (fun x => x)).getD ((Ky ogW (fun x => x)).length - 2) 0 +
        ((Kc ogW (fun x => x)).getD ((Ky ogW (fun x => x)).length - 1) 0 -
          (Kc ogW (fun x => x)).getD ((Ky ogW (fun x => x)).length - 2) 0) *
          ((0 : ℚ) - (Ky ogW (fun x => x)).getD ((Ky ogW (fun x => x)).length - 2) 0) /
          ((Ky ogW (fun x => x)).getD ((Ky ogW (fun x => x)).length - 1) 0 -
            (Ky ogW (fun x => x)).getD ((Ky ogW (fun x => x)).length - 2) 0)) ∧
    (0 + 1 < (Ky ogW (fun x => x)).length → (Ky ogW (fun x => x)).getD 0 0 ≤ (0 : ℚ) →
      (0 : ℚ) ≤ (Ky ogW (fun x => x)).getD (0 + 1) 0 →
      K ogW (fun x => x) 0 = (Kc ogW (fun x => x)).getD 0 0 +
        ((Kc ogW (fun x => x)).getD (0 + 1) 0 - (Kc ogW (fun x => x)).getD 0 0) *
          ((0 : ℚ) - (Ky ogW (fun x => x)).getD 0 0) /
          ((Ky ogW (fun x => x)).getD (0 + 1) 0 - (Ky ogW (fun x => x)).getD 0 0)) :=
  C5_policy_evaluation ogW (fun x => x) 0 0
    (by rw [ogW_Ky]; norm_num)
    (by rw [ogW_Ky]; norm_num [List.chain'_cons, List.chain'_singleton])

/-- C9: node fidelity of the returned interpolant: whenever the endogenous
grid is strictly increasing, the policy returned by the EGM operator
evaluated exactly at the endogenous income point y_i returns exactly the
stored consumption value c_i. -/
theorem C9_node_fidelity (og : OptimalGrowthModel ℚ) (σ : ℚ → ℚ) (i : ℕ)
    (hi : i < (Ky og σ).length)
    (hchain : List.Chain' (· < ·) (Ky og σ)) :
    K og σ ((Ky og σ).getD i 0) = (Kc og σ).getD i 0 := by
  unfold K
  exact interp_node (Ky og σ) (Kc og σ) (Kc_length_eq_Ky_length og σ)
    hchain i hi

theorem C9_witness :
    K ogW (fun x => x) ((Ky ogW (fun x => x)).getD 0 0) =
      (Kc ogW (fun x => x)).getD 0 0 :=
  C9_node_fidelity ogW (fun x => x) 0
    (by rw [ogW_Ky]; norm_num)
    (by rw [ogW_Ky]; norm_num [List.chain'_cons, List.chain'_singleton])

theorem C6_witness :
    Kc ogW (fun x => x) = Kc ogW (fun x => x) ∧
    Ky ogW (fun x => x) = Ky ogW (fun x => x) ∧
    (∀ x, K ogW (fun x => x) x = K ogW (fun x => x) x) ∧
    timeK (fun _ a _ => a) ogW [0, 0] = timeK (fun _ a _ => a) ogW [0, 0] :=
  C6_determinism ogW ogW (fun x => x) [0, 0] (fun _ a _ => a)
    rfl rfl rfl rfl rfl rfl rfl rfl

/-! ### Claim C8 -/

/-- C8: at each grid point y_i the exogenous-grid operator stores exactly
the value returned by the (externally supplied) bracketing root-finder
applied to the Euler residual c ↦ u'(c) − β·mean_j(u'(σ(f(y_i−c)·z_j))·
f'(y_i−c)·z_j), with the hardcoded bracket endpoints 1e-10 and
y_i − 1e-10; and a returned value is a root of that residual exactly when
it solves the claimed scalar Euler equation. -/
theorem C8_time_operator (rf : (ℚ → ℚ) → ℚ → ℚ → ℚ)
    (og : OptimalGrowthModel ℚ) (σv : List ℚ) (i : ℕ)
    (h : i < og.grid.length) :
    (timeK rf og σv).getD i 0 =
      rf (fun c => objective og σv (og.grid.getD i 0) c)
        (1 / 10000000000) (og.grid.getD i 0 - 1 / 10000000000) ∧
    (∀ y c, objective og σv y c =
      og.u_prime c - og.β * mean (og.shocks.map (fun z =>
        og.u_prime (interp og.grid σv (og.f (y - c) * z)) *
          og.f_prime (y - c) * z))) ∧
    (∀ c, objective og σv (og.grid.getD i 0) c = 0 ↔
      og.u_prime c = og.β * mean (og.shocks.map (fun z =>
        og.u_prime (interp og.grid σv (og.f (og.grid.getD i 0 - c) * z)) *
          og.f_prime (og.grid.getD i 0 - c) * z))) := by
  refine ⟨?_, fun y c => rfl, fun c => ?_⟩
  · unfold timeK
    rw [getD_map_of_lt _ _ _ h]
  · unfold objective
    exact sub_eq_zero

theorem C8_witness :
    (timeK (fun _ a _ => a) ogW [0, 0]).getD 0 0 =
      (fun _ a _ => a) (fun c => objective ogW [0, 0] (ogW.grid.getD 0 0) c)
        ((1 : ℚ) / 10000000000) (ogW.grid.getD 0 0 - 1 / 10000000000) ∧
    (∀ y c, objective ogW [0, 0] y c =
      ogW.u_prime c - ogW.β * mean (ogW.shocks.map (fun z =>
        ogW.u_prime (interp ogW.grid [0, 0] (ogW.f (y - c) * z)) *
          ogW.f_prime (y - c) * z))) ∧
    (∀ c, objective ogW [0, 0] (ogW.grid.getD 0 0) c = 0 ↔
      ogW.u_prime c = ogW.β * mean (ogW.shocks.map (fun z =>
        ogW.u_prime (interp ogW.grid [0, 0] (ogW.f (ogW.grid.getD 0 0 - c) * z)) *
          ogW.f_prime (ogW.grid.getD 0 0 - c) * z))) :=
  C8_time_operator (fun _ a _ => a) ogW [0, 0] 0
    (by norm_num [OptimalGrowthModel.grid, linspace_length, ogW])

/-! ### Claim C10 -/

theorem ogW_grid : ogW.grid = [1 / 100000, 2] := by
  norm_num [OptimalGrowthModel.grid, linspace, ogW, List.range_succ]

/-- C10: every grid point of linspace(1e-5, grid_max, grid_size) lies in
[1e-5, grid_max] and is strictly positive (grid_max > 1e-5, grid_size ≥ 2);
every stored shock exp(μ + s·Z_j) is strictly positive; and provided f
maps positive capital to positive output, the EGM operator evaluates the
input policy only at strictly positive incomes f(k_i)·z_j — two policies
that agree on positive arguments produce identical operator output. -/
theorem C10_positivity (gm : ℚ) (n : ℕ) (hgm : 1 / 100000 < gm) (hn : 2 ≤ n)
    (μ s : ℝ) (Z sample : List ℝ) (hs : IsShockSample μ s Z sample)
    (og : OptimalGrowthModel ℚ) (σ σ' : ℚ → ℚ)
    (hgpos : ∀ k ∈ og.grid, 0 < k) (hshpos : ∀ z ∈ og.shocks, 0 < z)
    (hfpos : ∀ x : ℚ, 0 < x → 0 < og.f x)
    (hagree : ∀ x : ℚ, 0 < x → σ x = σ' x) :
    (∀ k ∈ linspace (1 / 100000 : ℚ) gm n, 1 / 100000 ≤ k ∧ k ≤ gm ∧ 0 < k) ∧
    (∀ z ∈ sample, 0 < z) ∧
    Kc og σ = Kc og σ' ∧ Ky og σ = Ky og σ' ∧ (∀ x, K og σ x = K og σ' x) := by
  have hkc : Kc og σ = Kc og σ' := by
    unfold Kc
    apply List.map_congr_left
    intro k hk
    unfold egmC egmVals
    have hmap : og.shocks.map
        (fun z => og.u_prime (σ (og.f k * z)) * og.f_prime k * z) =
        og.shocks.map
        (fun z => og.u_prime (σ' (og.f k * z)) * og.f_prime k * z) := by
      apply List.map_congr_left
      intro z hz
      rw [hagree _ (mul_pos (hfpos k (hgpos k hk)) (hshpos z hz))]
    rw [hmap]
  have hky : Ky og σ = Ky og σ' := by
    unfold Ky
    rw [hkc]
  refine ⟨?_, ?_, hkc, hky, ?_⟩
  · intro k hk
    have hb := linspace_mem_bounds (1 / 100000) gm n (le_of_lt hgm) k hk
    exact ⟨hb.1, hb.2, lt_of_lt_of_le (by norm_num) hb.1⟩
  · intro z hz
    rw [hs] at hz
    obtain ⟨t, _, rfl⟩ := List.mem_map.1 hz
    exact Real.exp_pos _
  · intro x
    unfold K
    rw [hkc, hky]

theorem C10_witness :
    (∀ k ∈ linspace (1 / 100000 : ℚ) 2 2, 1 / 100000 ≤ k ∧ k ≤ 2 ∧ 0 < k) ∧
    (∀ z ∈ List.map (fun z => Real.exp (0 + 1 * z)) [0], 0 < z) ∧
    Kc ogW (fun x => x) = Kc ogW (fun x => x) ∧
    Ky ogW (fun x => x) = Ky ogW (fun x => x) ∧
    (∀ x, K ogW (fun x => x) x = K ogW (fun x => x) x) :=
  C10_positivity 2 2 (by norm_num) (by norm_num) 0 1 [0]
    (List.map (fun z => Real.exp (0 + 1 * z)) [0]) rfl ogW
    (fun x => x) (fun x => x)
    (by rw [ogW_grid]; intro k hk; simp at hk; rcases hk with rfl | rfl <;> norm_num)
    (by intro z hz; simp [ogW] at hz; norm_num [hz])
    (fun x h => h)
    (fun _ _ => rfl)

/-! ### Claim C7 -/

/-- C7: for the log-utility / Cobb-Douglas parameterisation (α = 2/5,
β = 24/25, u_prime = u_prime_inv = 1/c, grid of 200 points on [1e-5, 4],
any sample of 250 positive shocks), applying the EGM operator once to the
closed-form optimal policy σ*(y) = (1 − αβ)·y reproduces σ* exactly at
every capital grid point — the shock terms cancel, the endogenous nodes are
colinear, and linear interpolation/extrapolation through colinear nodes is
exact — so the pointwise deviation is 0, below the claimed 1e-6. -/
theorem C7_fixed_point (og : OptimalGrowthModel ℝ)
    (hf : og.f = fun t => t ^ ((2 : ℝ) / 5))
    (hfp : og.f_prime = fun t => (2 / 5) * t ^ ((2 : ℝ) / 5 - 1))
    (hup : og.u_prime = fun c => 1 / c)
    (hupi : og.u_prime_inv = fun c => 1 / c)
    (hβ : og.β = 24 / 25)
    (hgm : og.grid_max = 4) (hgs : og.grid_size = 200)
    (hshpos : ∀ z ∈ og.shocks, 0 < z) (hshlen : og.shocks.length = 250)
    (k : ℝ) (hk : k ∈ og.grid) :
    |K og (fun y => (1 - (2 / 5 : ℝ) * (24 / 25)) * y) k -
      (1 - (2 / 5 : ℝ) * (24 / 25)) * k| < 1 / 1000000 := by
  have hgrid : og.grid = linspace (1 / 100000) 4 200 := by
    unfold OptimalGrowthModel.grid
    rw [hgm, hgs]
  have hgpos : ∀ t ∈ og.grid, (0 : ℝ) < t := by
    intro t ht
    rw [hgrid] at ht
    have := (linspace_mem_bounds (1 / 100000 : ℝ) 4 200 (by norm_num) t ht).1
    linarith
  have hchaing : List.Chain' (· < ·) og.grid := by
    rw [hgrid]
    exact linspace_chain _ _ _ (by norm_num)
  have hshne : og.shocks ≠ [] := by
    intro hnil
    rw [hnil] at hshlen
    simp at hshlen
  have hegm : ∀ t ∈ og.grid,
      egmC og (fun y => (1 - (2 / 5 : ℝ) * (24 / 25)) * y) t = (77 / 48) * t := by
    intro t ht
    have htpos : (0 : ℝ) < t := hgpos t ht
    have htne : t ≠ 0 := ne_of_gt htpos
    unfold egmC egmVals
    have hval : og.shocks.map (fun z =>
        og.u_prime ((fun y => (1 - (2 / 5 : ℝ) * (24 / 25)) * y) (og.f t * z)) *
          og.f_prime t * z) =
        og.shocks.map (fun _ => (50 / 77) / t) := by
      apply List.map_congr_left
      intro z hz
      have hzpos := hshpos z hz
      have hzne : z ≠ 0 := ne_of_gt hzpos
      rw [hf, hup, hfp]
      show 1 / ((1 - (2 / 5 : ℝ) * (24 / 25)) * (t ^ ((2 : ℝ) / 5) * z)) *
        ((2 / 5) * t ^ ((2 : ℝ) / 5 - 1)) * z = (50 / 77) / t
      have hrp : t ^ ((2 : ℝ) / 5 - 1) = t ^ ((2 : ℝ) / 5) / t := by
        rw [Real.rpow_sub htpos, Real.rpow_one]
      have hrpos : (0 : ℝ) < t ^ ((2 : ℝ) / 5) := Real.rpow_pos_of_pos htpos _
      have hrne : t ^ ((2 : ℝ) / 5) ≠ 0 := ne_of_gt hrpos
      rw [hrp]
      field_simp
      ring
    rw [hval, mean_map_const _ _ hshne, hβ, hupi]
    show 1 / ((24 / 25) * ((50 / 77) / t)) = (77 / 48) * t
    field_simp
    ring
  have hkc : Kc og (fun y => (1 - (2 / 5 : ℝ) * (24 / 25)) * y) =
      og.grid.map (fun t => (77 / 48) * t) := by
    unfold Kc
    exact List.map_congr_left hegm
  have hky : Ky og (fun y => (1 - (2 / 5 : ℝ) * (24 / 25)) * y) =
      og.grid.map (fun t => (125 / 48) * t) := by
    rw [Ky_eq_map]
    apply List.map_congr_left
    intro t ht
    rw [hegm t ht]
    ring
  have hchainy : List.Chain' (· < ·)
      (Ky og (fun y => (1 - (2 / 5 : ℝ) * (24 / 25)) * y)) := by
    rw [hky, List.chain'_map]
    refine List.Chain'.imp ?_ hchaing
    intro a b hab
    simpa using (by nlinarith : (125 / 48 : ℝ) * a < (125 / 48) * b)
  have hkc' : Kc og (fun y => (1 - (2 / 5 : ℝ) * (24 / 25)) * y) =
      (Ky og (fun y => (1 - (2 / 5 : ℝ) * (24 / 25)) * y)).map
        (fun t => (77 / 125) * t) := by
    rw [hkc, hky, List.map_map]
    apply List.map_congr_left
    intro t _
    show (77 / 48 : ℝ) * t = (77 / 125) * ((125 / 48) * t)
    ring
  have hlen : 2 ≤ (Ky og (fun y => (1 - (2 / 5 : ℝ) * (24 / 25)) * y)).length := by
    rw [hky, List.length_map, hgrid, linspace_length]
    norm_num
  obtain ⟨a, b, t, hY⟩ : ∃ a b t,
      Ky og (fun y => (1 - (2 / 5 : ℝ) * (24 / 25)) * y) = a :: b :: t := by
    rcases hls : Ky og (fun y => (1 - (2 / 5 : ℝ) * (24 / 25)) * y) with _ | ⟨a, _ | ⟨b, t⟩⟩
    · rw [hls] at hlen; simp at hlen
    · rw [hls] at hlen; simp at hlen
    · exact ⟨a, b, t, rfl⟩
  have hKval : K og (fun y => (1 - (2 / 5 : ℝ) * (24 / 25)) * y) k =
      (77 / 125) * k := by
    unfold K
    rw [hkc', hY]
    exact interp_affine (77 / 125 : ℝ) t a b k (hY ▸ hchainy)
  rw [hKval]
  have h77 : (1 : ℝ) - (2 / 5) * (24 / 25) = 77 / 125 := by norm_num
  rw [h77, sub_self, abs_zero]
  norm_num

theorem C7_witness :
    |K ⟨fun t => t ^ ((2 : ℝ) / 5), fun t => (2 / 5) * t ^ ((2 : ℝ) / 5 - 1),
        Real.log, fun c => 1 / c, fun c => 1 / c, 24 / 25, 0, 1 / 10, 4, 200,
        List.replicate 250 1⟩
      (fun y => (1 - (2 / 5 : ℝ) * (24 / 25)) * y) (1 / 100000) -
      (1 - (2 / 5 : ℝ) * (24 / 25)) * (1 / 100000)| < 1 / 1000000 :=
  C7_fixed_point
    ⟨fun t => t ^ ((2 : ℝ) / 5), fun t => (2 / 5) * t ^ ((2 : ℝ) / 5 - 1),
      Real.log, fun c => 1 / c, fun c => 1 / c, 24 / 25, 0, 1 / 10, 4, 200,
      List.replicate 250 1⟩
    rfl rfl rfl rfl rfl rfl rfl
    (by
      intro z hz
      have := List.eq_of_mem_replicate hz
      rw [this]
      norm_num)
    (by rw [List.length_replicate])
    (1 / 100000)
    (linspace_mem_self (1 / 100000 : ℝ) 4 200 (by norm_num))

end EGM
